import Mathlib

set_option maxHeartbeats 1000000
set_option maxRecDepth 100000

/-
Verification of the ffmpeg-oneclick core components.

Part 1 models the `ConcurrentQueue` task scheduler from
`packages/core/src/concurrent.ts` as an explicit state machine.  JavaScript
runs the scheduler on a single cooperative thread: every method body executes
atomically up to its next `await`.  Accordingly each model step is one such
atomic segment:

* `addTask`       — `add()` including the synchronous prefix of the
                    `process()` call it makes (up to `await task.run()`);
* `cancelTask`    — `cancel()`;
* `fireTimeout`   — the `setTimeout` callback armed by `process()`;
* `settleExec`    — the continuation of `process()` after `await task.run()`
                    settles (resolve or reject), including its `finally`
                    block and the synchronous prefix of the recursive
                    `process()` call;
* `pauseQueue` / `resumeQueue` / `setMaxConcurrentQ` / `clearQueue`.

Tasks live in a store indexed by id (ids are `++this.taskIdCounter`, modelled
as successive naturals; the `Date.now()` suffix of the id string is dropped
since ids are only compared for equality).  Wall-clock timestamp fields
(`createdAt`, `startedAt`, `completedAt`), the `result`/`error` payloads and
the emitted events do not influence any control flow and are omitted.
`startOrder` is a ghost field recording the order in which tasks were marked
running (i.e. the order in which their `run` bodies are invoked).
-/

namespace FfmpegOneclick

/-- `TaskPriority` from concurrent.ts. -/
inductive TaskPriority where
  | high
  | normal
  | low
deriving DecidableEq, Repr

/-- `TaskStatus` from concurrent.ts (`paused` is declared there but never
assigned to a task). -/
inductive TaskStatus where
  | pending
  | running
  | paused
  | completed
  | failed
  | cancelled
deriving DecidableEq, Repr

/-- The scheduler-relevant fields of a `Task`.  `aborted` models
`abortController.signal.aborted`. -/
structure Task where
  id : Nat
  priority : TaskPriority
  status : TaskStatus
  aborted : Bool
deriving DecidableEq, Repr

/-- One in-flight invocation of `process()` that is suspended at
`await task.run()`.  `localCancelled` is the closure-local `cancelled`
variable; `timerArmed` records whether the timeout timer is set and has
neither fired nor been cleared. -/
structure Exec where
  taskId : Nat
  localCancelled : Bool
  timerArmed : Bool
deriving DecidableEq, Repr

/-- `QueueOptions` from concurrent.ts.  `maxConcurrent = 0` stands for the
absent/falsy option (the constructor applies `|| 3`). -/
structure QueueOptions where
  maxConcurrent : Nat := 0
  autoStart : Bool := true
  timeout : Nat := 0
deriving DecidableEq, Repr

/-- The mutable state of a `ConcurrentQueue`.  `queue` and `running` hold
task ids; the task records themselves live in `store`. -/
structure QueueState where
  maxConcurrent : Nat
  autoStart : Bool
  timeout : Nat
  paused : Bool
  taskIdCounter : Nat
  store : List Task
  queue : List Nat
  running : List Nat
  execs : List Exec
  completedTasks : List Nat
  maxHistorySize : Nat
  startOrder : List Nat
deriving DecidableEq, Repr

/-- Look up a task record by id. -/
def findTask (store : List Task) (id : Nat) : Option Task :=
  store.find? (fun t => t.id == id)

/-- Assign `task.status = st` through the shared reference: every alias of
the task with this id sees the update. -/
def setStatus (store : List Task) (id : Nat) (st : TaskStatus) : List Task :=
  store.map (fun t => if t.id == id then { t with status := st } else t)

/-- `task.abortController.abort()`. -/
def setAborted (store : List Task) (id : Nat) : List Task :=
  store.map (fun t => if t.id == id then { t with aborted := true } else t)

/-- The status of the task with the given id, if it exists. -/
def statusOf (s : QueueState) (id : Nat) : Option TaskStatus :=
  (findTask s.store id).map Task.status

/-- Priority of a queued id; `?? 'normal'` fallback as in `insertTask`. -/
def priorityOf (store : List Task) (id : Nat) : TaskPriority :=
  match findTask store id with
  | some t => t.priority
  | none => TaskPriority.normal

/-- The `priorityOrder` table of `ConcurrentQueue.insertTask`. -/
def priorityOrder : TaskPriority → Nat
  | TaskPriority.high => 0
  | TaskPriority.normal => 1
  | TaskPriority.low => 2

/-- `ConcurrentQueue.insertTask`: splice the new task in before the first
queued task whose priority rank is strictly greater (lower urgency); append
at the end if there is none. -/
def insertByPriority (store : List Task) (t : Task) : List Nat → List Nat
  | [] => [t.id]
  | x :: xs =>
    if priorityOrder t.priority < priorityOrder (priorityOf store x) then
      t.id :: x :: xs
    else
      x :: insertByPriority store t xs

/-- `ConcurrentQueue.addToHistory`: push, then shift once the log exceeds
`maxHistorySize`. -/
def pushHistory (maxHistorySize : Nat) (hist : List Nat) (id : Nat) : List Nat :=
  let h := hist ++ [id]
  if maxHistorySize < h.length then h.tail else h

/-- The synchronous prefix of `ConcurrentQueue.process()`: return if paused
or at the concurrency cap; otherwise shift the queue head, mark it running,
record it in the running map, and arm the timeout timer if `timeout > 0`. -/
def processStep (s : QueueState) : QueueState :=
  if s.paused then s
  else if s.maxConcurrent ≤ s.running.length then s
  else
    match s.queue with
    | [] => s
    | id :: rest =>
      { s with
        queue := rest
        store := setStatus s.store id TaskStatus.running
        running := s.running ++ [id]
        execs := s.execs ++ [⟨id, false, 0 < s.timeout⟩]
        startOrder := s.startOrder ++ [id] }

/-- `ConcurrentQueue.add`: create a pending task with a fresh id, insert it
by priority, and (when `autoStart` and not paused) call `process()`. -/
def addTask (prio : TaskPriority) (s : QueueState) : QueueState × Nat :=
  let id := s.taskIdCounter + 1
  let t : Task := { id := id, priority := prio, status := TaskStatus.pending, aborted := false }
  let store := s.store ++ [t]
  let s1 := { s with taskIdCounter := id, store := store,
                     queue := insertByPriority store t s.queue }
  let s2 := if s1.autoStart && !s1.paused then processStep s1 else s1
  (s2, id)

/-- `ConcurrentQueue.cancel`: remove a pending task from the queue and mark
it cancelled, or abort a running task, mark it cancelled and drop it from
the running map; return `false` when the id is in neither collection. -/
def cancelTask (taskId : Nat) (s : QueueState) : QueueState × Bool :=
  if taskId ∈ s.queue then
    ({ s with queue := s.queue.erase taskId,
              store := setStatus s.store taskId TaskStatus.cancelled }, true)
  else if taskId ∈ s.running then
    ({ s with store := setStatus (setAborted s.store taskId) taskId TaskStatus.cancelled,
              running := s.running.erase taskId }, true)
  else
    (s, false)

/-- The timeout callback armed in `process()`: set the closure-local
`cancelled` flag, then call `this.cancel(task.id)`. -/
def fireTimeout (i : Nat) (s : QueueState) : QueueState :=
  match s.execs[i]? with
  | none => s
  | some e =>
    if e.timerArmed then
      let s1 := { s with
        execs := s.execs.set i { e with localCancelled := true, timerArmed := false } }
      (cancelTask e.taskId s1).1
    else s

/-- The continuation of `process()` once `await task.run()` settles.
On resolve (`ok = true`): clear the timer and, unless the closure-local
`cancelled` flag is set, mark the task completed and log it.  On reject:
mark the task failed and log it, with no guard on the `cancelled` flag.
The `finally` block then deletes the id from the running map and calls
`process()` again. -/
def settleExec (i : Nat) (ok : Bool) (s : QueueState) : QueueState :=
  match s.execs[i]? with
  | none => s
  | some e =>
    let s0 := { s with execs := s.execs.eraseIdx i }
    let s1 :=
      if ok then
        if e.localCancelled then s0
        else
          { s0 with store := setStatus s0.store e.taskId TaskStatus.completed,
                    completedTasks := pushHistory s0.maxHistorySize s0.completedTasks e.taskId }
      else
        { s0 with store := setStatus s0.store e.taskId TaskStatus.failed,
                  completedTasks := pushHistory s0.maxHistorySize s0.completedTasks e.taskId }
    processStep { s1 with running := s1.running.erase e.taskId }

/-- `ConcurrentQueue.pause`. -/
def pauseQueue (s : QueueState) : QueueState := { s with paused := true }

/-- `ConcurrentQueue.resume`: unset `paused`, then call `process()`. -/
def resumeQueue (s : QueueState) : QueueState := processStep { s with paused := false }

/-- `ConcurrentQueue.setMaxConcurrent`: assign the new cap, then call
`process()`. -/
def setMaxConcurrentQ (m : Nat) (s : QueueState) : QueueState :=
  processStep { s with maxConcurrent := m }

/-- `ConcurrentQueue.clear`: mark every pending and running task cancelled
and empty both collections. -/
def clearQueue (s : QueueState) : QueueState :=
  { s with
    store := (s.queue ++ s.running).foldl (fun st id => setStatus st id TaskStatus.cancelled) s.store
    queue := []
    running := [] }

/-- An externally observable scheduler event: a public method call, a timer
firing, or a running job settling. -/
inductive QEvent where
  | add (prio : TaskPriority)
  | cancel (taskId : Nat)
  | fire (execIdx : Nat)
  | settle (execIdx : Nat) (ok : Bool)
  | pause
  | resume
  | setMax (m : Nat)
  | clear
deriving DecidableEq, Repr

/-- One atomic scheduler step. -/
def step : QEvent → QueueState → QueueState
  | QEvent.add p, s => (addTask p s).1
  | QEvent.cancel id, s => (cancelTask id s).1
  | QEvent.fire i, s => fireTimeout i s
  | QEvent.settle i ok, s => settleExec i ok s
  | QEvent.pause, s => pauseQueue s
  | QEvent.resume, s => resumeQueue s
  | QEvent.setMax m, s => setMaxConcurrentQ m s
  | QEvent.clear, s => clearQueue s

/-- The `ConcurrentQueue` constructor (`maxConcurrent || 3`,
`autoStart !== false`, `timeout || 0`, history cap 100). -/
def mkQueue (opts : QueueOptions) : QueueState :=
  { maxConcurrent := if opts.maxConcurrent = 0 then 3 else opts.maxConcurrent
    autoStart := opts.autoStart
    timeout := opts.timeout
    paused := false
    taskIdCounter := 0
    store := []
    queue := []
    running := []
    execs := []
    completedTasks := []
    maxHistorySize := 100
    startOrder := [] }

/-- Run a sequence of scheduler events. -/
def runEvents (evs : List QEvent) (s : QueueState) : QueueState :=
  evs.foldl (fun st e => step e st) s

/-- Task `a` was marked running strictly before task `b` (both must occur in
the ghost start log). -/
def startedBefore (s : QueueState) (a b : Nat) : Prop :=
  a ∈ s.startOrder ∧ b ∈ s.startOrder ∧ s.startOrder.indexOf a < s.startOrder.indexOf b

instance (s : QueueState) (a b : Nat) : Decidable (startedBefore s a b) := by
  unfold startedBefore
  infer_instance

/-- C1: the claimed status-transition invariant fails.  Trace: one task is
added with `autoStart` and spare capacity (it starts running at once), the
caller then cancels it — `cancel()` marks it cancelled and removes it from
the running map, but the closure-local `cancelled` flag of `process()` stays
`false` because only the timeout callback sets it — and when the task's
`run` promise then resolves, the `if (!cancelled)` guard passes and the
status is overwritten with `completed`.  So a task observably transitions
`cancelled → completed`. -/
theorem C1_cancelled_task_becomes_completed :
    statusOf (runEvents [QEvent.add TaskPriority.normal, QEvent.cancel 1]
      (mkQueue { maxConcurrent := 3, autoStart := true, timeout := 0 })) 1 =
      some TaskStatus.cancelled ∧
    statusOf (runEvents [QEvent.add TaskPriority.normal, QEvent.cancel 1, QEvent.settle 0 true]
      (mkQueue { maxConcurrent := 3, autoStart := true, timeout := 0 })) 1 =
      some TaskStatus.completed := by
  decide

/-- C4: the claimed timeout semantics fail on the rejection branch.  Trace:
a task starts with a nonzero timeout configured, the timer fires (the
closure-local `cancelled` flag is set and `cancel()` marks the task
cancelled), and the underlying operation then rejects — the `catch` block of
`process()` sets `task.status = 'failed'` with no guard on the `cancelled`
flag, so the terminal status is `failed`, not `cancelled`. -/
theorem C4_timed_out_task_becomes_failed :
    statusOf (runEvents [QEvent.add TaskPriority.normal, QEvent.fire 0]
      (mkQueue { maxConcurrent := 3, autoStart := true, timeout := 100 })) 1 =
      some TaskStatus.cancelled ∧
    statusOf (runEvents [QEvent.add TaskPriority.normal, QEvent.fire 0, QEvent.settle 0 false]
      (mkQueue { maxConcurrent := 3, autoStart := true, timeout := 100 })) 1 =
      some TaskStatus.failed := by
  decide

/-- C3 counterexample: when three tasks are added in call order low, high,
normal while the scheduler has spare capacity (`maxConcurrent = 3`, nothing
running, `autoStart` on, not paused), each `add()` synchronously starts its
own task inside its `process()` call, so the tasks are marked running in
call order low, high, normal — the high-priority task (id 2) does not start
before the low-priority one (id 1). -/
theorem C3_counterexample_start_order_is_call_order :
    (runEvents [QEvent.add TaskPriority.low, QEvent.add TaskPriority.high,
        QEvent.add TaskPriority.normal]
      (mkQueue { maxConcurrent := 3, autoStart := true, timeout := 0 })).startOrder =
      [1, 2, 3] ∧
    priorityOf (runEvents [QEvent.add TaskPriority.low, QEvent.add TaskPriority.high,
        QEvent.add TaskPriority.normal]
      (mkQueue { maxConcurrent := 3, autoStart := true, timeout := 0 })).store 1 =
      TaskPriority.low ∧
    priorityOf (runEvents [QEvent.add TaskPriority.low, QEvent.add TaskPriority.high,
        QEvent.add TaskPriority.normal]
      (mkQueue { maxConcurrent := 3, autoStart := true, timeout := 0 })).store 2 =
      TaskPriority.high ∧
    ¬ startedBefore (runEvents [QEvent.add TaskPriority.low, QEvent.add TaskPriority.high,
        QEvent.add TaskPriority.normal]
      (mkQueue { maxConcurrent := 3, autoStart := true, timeout := 0 })) 2 1 := by
  decide

/-- C3 (amended): if the three tasks are added in call order low, high,
normal while the scheduler is not yet processing (here `autoStart = false`),
so that all three are pending together, then once processing starts the
high-priority task (id 2) is marked running before the normal one (id 3)
and before the low one (id 1), whatever each job's outcome is. -/
theorem C3_amended_high_starts_first (b1 b2 b3 : Bool) :
    startedBefore (runEvents [QEvent.add TaskPriority.low, QEvent.add TaskPriority.high,
        QEvent.add TaskPriority.normal, QEvent.resume,
        QEvent.settle 0 b1, QEvent.settle 0 b2, QEvent.settle 0 b3]
      (mkQueue { maxConcurrent := 2, autoStart := false, timeout := 0 })) 2 3 ∧
    startedBefore (runEvents [QEvent.add TaskPriority.low, QEvent.add TaskPriority.high,
        QEvent.add TaskPriority.normal, QEvent.resume,
        QEvent.settle 0 b1, QEvent.settle 0 b2, QEvent.settle 0 b3]
      (mkQueue { maxConcurrent := 2, autoStart := false, timeout := 0 })) 2 1 ∧
    startedBefore (runEvents [QEvent.add TaskPriority.low, QEvent.add TaskPriority.high,
        QEvent.add TaskPriority.normal, QEvent.resume,
        QEvent.settle 0 b1, QEvent.settle 0 b2, QEvent.settle 0 b3]
      (mkQueue { maxConcurrent := 2, autoStart := false, timeout := 0 })) 3 1 := by
  cases b1 <;> cases b2 <;> cases b3 <;> decide

/-- Events that change the concurrency cap. -/
def QEvent.isSetMax : QEvent → Bool
  | QEvent.setMax _ => true
  | _ => false

theorem processStep_stuck (s : QueueState) (h : s.maxConcurrent ≤ s.running.length) :
    processStep s = s := by
  unfold processStep
  repeat' split
  all_goals rfl

theorem processStep_max (s : QueueState) :
    (processStep s).maxConcurrent = s.maxConcurrent := by
  unfold processStep
  repeat' split
  all_goals rfl

theorem processStep_cap (s : QueueState) (h : s.running.length ≤ s.maxConcurrent) :
    (processStep s).running.length ≤ s.maxConcurrent := by
  unfold processStep
  repeat' split
  all_goals
    first
      | exact h
      | (simp only [List.length_append, List.length_cons, List.length_nil]; omega)

theorem cancelTask_running_le (id : Nat) (s : QueueState) :
    (cancelTask id s).1.running.length ≤ s.running.length ∧
    (cancelTask id s).1.maxConcurrent = s.maxConcurrent := by
  unfold cancelTask
  split
  · exact ⟨le_refl _, rfl⟩
  · split
    · exact ⟨(List.erase_sublist _ _).length_le, rfl⟩
    · exact ⟨le_refl _, rfl⟩

/-- Every scheduler step other than `setMaxConcurrent` preserves the cap and
keeps the running count at or below it: the only place a task starts is the
`running.size >= maxConcurrent` guarded branch of `process()`. -/
theorem step_cap (e : QEvent) (s : QueueState) (he : e.isSetMax = false)
    (h : s.running.length ≤ s.maxConcurrent) :
    (step e s).running.length ≤ (step e s).maxConcurrent ∧
    (step e s).maxConcurrent = s.maxConcurrent := by
  cases e with
  | add p =>
      simp only [step, addTask]
      split
      · rw [processStep_max]
        exact ⟨processStep_cap _ h, rfl⟩
      · exact ⟨h, rfl⟩
  | cancel id =>
      simp only [step]
      have hc := cancelTask_running_le id s
      refine ⟨?_, hc.2⟩
      rw [hc.2]
      exact le_trans hc.1 h
  | fire i =>
      simp only [step, fireTimeout]
      split
      · exact ⟨h, rfl⟩
      · split
        · rename_i e hsome harmed
          have hc := cancelTask_running_le e.taskId
            { s with execs := s.execs.set i { e with localCancelled := true, timerArmed := false } }
          refine ⟨?_, hc.2⟩
          rw [hc.2]
          exact le_trans hc.1 h
        · exact ⟨h, rfl⟩
  | settle i ok =>
      simp only [step, settleExec]
      split
      · exact ⟨h, rfl⟩
      · rename_i e hsome
        have hle : (s.running.erase e.taskId).length ≤ s.maxConcurrent :=
          le_trans (List.erase_sublist _ _).length_le h
        split
        · split
          · rw [processStep_max]
            exact ⟨processStep_cap _ hle, rfl⟩
          · rw [processStep_max]
            exact ⟨processStep_cap _ hle, rfl⟩
        · rw [processStep_max]
          exact ⟨processStep_cap _ hle, rfl⟩
  | pause => exact ⟨h, rfl⟩
  | resume =>
      simp only [step, resumeQueue]
      rw [processStep_max]
      exact ⟨processStep_cap _ h, rfl⟩
  | setMax m => simp [QEvent.isSetMax] at he
  | clear => exact ⟨Nat.zero_le _, rfl⟩

theorem runEvents_cap (evs : List QEvent) (s : QueueState)
    (hevs : ∀ e ∈ evs, e.isSetMax = false)
    (h : s.running.length ≤ s.maxConcurrent) :
    (runEvents evs s).running.length ≤ (runEvents evs s).maxConcurrent := by
  induction evs generalizing s with
  | nil => exact h
  | cons e rest ih =>
      have he : e.isSetMax = false := hevs e (by simp)
      have hrest : ∀ x ∈ rest, x.isSetMax = false := fun x hx => hevs x (by simp [hx])
      have hstep := step_cap e s he h
      have hnext : (step e s).running.length ≤ (step e s).maxConcurrent := hstep.1
      simpa only [runEvents, List.foldl_cons] using ih (step e s) hrest hnext

/-- C2: for any sequence of scheduler events that never changes the cap, the
running count stays at or below `maxConcurrent` after every prefix; and
whenever the running count is at or above the current cap — in particular
right after `setMaxConcurrent` reduced the cap below it — `process()` is a
no-op, so no new task starts until the running count has dropped below the
cap. -/
theorem C2_running_count_bounded_by_cap :
    (∀ (opts : QueueOptions) (evs : List QEvent),
      (∀ e ∈ evs, e.isSetMax = false) →
      (runEvents evs (mkQueue opts)).running.length ≤
        (runEvents evs (mkQueue opts)).maxConcurrent)
    ∧ (∀ s : QueueState, s.maxConcurrent ≤ s.running.length → processStep s = s) := by
  constructor
  · intro opts evs hevs
    exact runEvents_cap evs (mkQueue opts) hevs (Nat.zero_le _)
  · exact fun s h => processStep_stuck s h

/-- C2 witness: four tasks added under cap 2 leave at most 2 running; and in
the state reached by those adds with the cap then lowered to 1 (as
`setMaxConcurrent(1)` assigns before it calls `process()`), `process()`
starts nothing. -/
theorem C2_running_count_bounded_by_cap_witness :
    ((runEvents [QEvent.add TaskPriority.normal, QEvent.add TaskPriority.normal,
        QEvent.add TaskPriority.normal, QEvent.add TaskPriority.normal]
      (mkQueue { maxConcurrent := 2 })).running.length ≤
      (runEvents [QEvent.add TaskPriority.normal, QEvent.add TaskPriority.normal,
        QEvent.add TaskPriority.normal, QEvent.add TaskPriority.normal]
      (mkQueue { maxConcurrent := 2 })).maxConcurrent)
    ∧ processStep
        { (runEvents [QEvent.add TaskPriority.normal, QEvent.add TaskPriority.normal,
            QEvent.add TaskPriority.normal, QEvent.add TaskPriority.normal]
          (mkQueue { maxConcurrent := 2 })) with maxConcurrent := 1 } =
      { (runEvents [QEvent.add TaskPriority.normal, QEvent.add TaskPriority.normal,
            QEvent.add TaskPriority.normal, QEvent.add TaskPriority.normal]
          (mkQueue { maxConcurrent := 2 })) with maxConcurrent := 1 } :=
  ⟨C2_running_count_bounded_by_cap.1 { maxConcurrent := 2 }
      [QEvent.add TaskPriority.normal, QEvent.add TaskPriority.normal,
        QEvent.add TaskPriority.normal, QEvent.add TaskPriority.normal] (by decide),
   C2_running_count_bounded_by_cap.2 _ (by decide)⟩

theorem findTask_map_preserving (f : Task → Task) (hf : ∀ t, (f t).id = t.id)
    (store : List Task) (j : Nat) :
    findTask (store.map f) j = (findTask store j).map f := by
  unfold findTask
  have hpred : ((fun t : Task => t.id == j) ∘ f) = (fun t : Task => t.id == j) := by
    funext t
    simp [Function.comp, hf]
  rw [List.find?_map, hpred]

theorem setStatus_id_preserving (id : Nat) (st : TaskStatus) :
    ∀ t : Task, ((fun u => if u.id == id then { u with status := st } else u) t).id = t.id := by
  intro t
  by_cases h : t.id == id <;> simp [h]

theorem setAborted_id_preserving (id : Nat) :
    ∀ t : Task, ((fun u => if u.id == id then { u with aborted := true } else u) t).id = t.id := by
  intro t
  by_cases h : t.id == id <;> simp [h]

theorem findTask_setStatus_isSome (store : List Task) (id j : Nat) (st : TaskStatus) :
    (findTask (setStatus store id st) j).isSome = (findTask store j).isSome := by
  unfold setStatus
  rw [findTask_map_preserving _ (setStatus_id_preserving id st)]
  cases findTask store j <;> rfl

theorem findTask_setAborted_isSome (store : List Task) (id j : Nat) :
    (findTask (setAborted store id) j).isSome = (findTask store j).isSome := by
  unfold setAborted
  rw [findTask_map_preserving _ (setAborted_id_preserving id)]
  cases findTask store j <;> rfl

/-- After `task.status = st` through any alias, looking the task up by id
reads back `st`. -/
theorem status_setStatus (store : List Task) (id : Nat) (st : TaskStatus)
    (h : (findTask store id).isSome = true) :
    (findTask (setStatus store id st) id).map Task.status = some st := by
  obtain ⟨t, ht⟩ := Option.isSome_iff_exists.mp h
  have ht2 : store.find? (fun u => u.id == id) = some t := ht
  have hp : ((fun u : Task => u.id == id) t) = true :=
    List.find?_some (p := fun u : Task => u.id == id) ht2
  unfold setStatus
  have hid : t.id = id := by simpa using hp
  rw [findTask_map_preserving _ (setStatus_id_preserving id st), ht]
  simp [hid]

theorem findTask_append_isSome (store : List Task) (t : Task) (j : Nat)
    (h : (findTask store j).isSome = true ∨ j = t.id) :
    (findTask (store ++ [t]) j).isSome = true := by
  unfold findTask at h ⊢
  rw [List.find?_append]
  cases hfind : store.find? (fun u => u.id == j) with
  | some a => simp [Option.or]
  | none =>
      rcases h with h | h
      · rw [hfind] at h
        simp at h
      · subst h
        have hp : ((fun u : Task => u.id == t.id) t) = true := by simp
        rw [List.find?_cons_of_pos (p := fun u : Task => u.id == t.id) _ hp]
        simp [Option.or]

theorem mem_insertByPriority (store : List Task) (t : Task) (q : List Nat) (x : Nat) :
    x ∈ insertByPriority store t q ↔ x = t.id ∨ x ∈ q := by
  induction q with
  | nil => simp [insertByPriority]
  | cons y ys ih =>
      unfold insertByPriority
      split
      · simp [List.mem_cons]
      · simp only [List.mem_cons, ih]
        tauto

theorem nodup_insertByPriority (store : List Task) (t : Task) (q : List Nat)
    (hq : q.Nodup) (ht : t.id ∉ q) : (insertByPriority store t q).Nodup := by
  induction q with
  | nil => simp [insertByPriority]
  | cons y ys ih =>
      rcases List.nodup_cons.mp hq with ⟨hy, hys⟩
      have ht2 : t.id ∉ ys := fun hmem => ht (List.mem_cons_of_mem _ hmem)
      unfold insertByPriority
      split
      · exact List.nodup_cons.mpr ⟨ht, hq⟩
      · refine List.nodup_cons.mpr ⟨?_, ih hys ht2⟩
        intro hmem
        rcases (mem_insertByPriority store t ys y).mp hmem with h1 | h1
        · subst h1
          exact ht (List.mem_cons_self _ _)
        · exact hy h1

/-- Scheduler well-formedness: pending ids are duplicate-free, were never
started, are at most the id counter, and resolve in the store; started ids
are at most the id counter. -/
def Wf (s : QueueState) : Prop :=
  s.queue.Nodup ∧
  (∀ i ∈ s.queue, i ∉ s.startOrder) ∧
  (∀ i ∈ s.queue, i ≤ s.taskIdCounter) ∧
  (∀ i ∈ s.startOrder, i ≤ s.taskIdCounter) ∧
  (∀ i ∈ s.queue, (findTask s.store i).isSome = true)

/-- `process()` either does nothing or starts exactly the queue head. -/
theorem processStep_cases (s : QueueState) :
    processStep s = s ∨
    ∃ id rest, s.queue = id :: rest ∧
      processStep s = { s with
        queue := rest
        store := setStatus s.store id TaskStatus.running
        running := s.running ++ [id]
        execs := s.execs ++ [⟨id, false, 0 < s.timeout⟩]
        startOrder := s.startOrder ++ [id] } := by
  unfold processStep
  repeat' split
  · exact Or.inl rfl
  · exact Or.inl rfl
  · exact Or.inl rfl
  · rename_i hq
    exact Or.inr ⟨_, _, hq, rfl⟩

theorem wf_processStep (s : QueueState) (h : Wf s) : Wf (processStep s) := by
  obtain ⟨h1, h2, h3, h4, h5⟩ := h
  rcases processStep_cases s with hp | ⟨id, rest, hq, hp⟩
  · rw [hp]
    exact ⟨h1, h2, h3, h4, h5⟩
  · rw [hp]
    rw [hq] at h1 h2 h3 h5
    rcases List.nodup_cons.mp h1 with ⟨hid, hrest⟩
    refine ⟨hrest, ?_, ?_, ?_, ?_⟩
    · intro i hi
      simp only [List.mem_append, List.mem_singleton]
      rintro (hin | hin)
      · exact h2 i (List.mem_cons_of_mem _ hi) hin
      · exact hid (hin ▸ hi)
    · exact fun i hi => h3 i (List.mem_cons_of_mem _ hi)
    · intro i hi
      rcases List.mem_append.mp hi with hin | hin
      · exact h4 i hin
      · rw [List.mem_singleton.mp hin]
        exact h3 id (List.mem_cons_self _ _)
    · intro i hi
      rw [findTask_setStatus_isSome]
      exact h5 i (List.mem_cons_of_mem _ hi)

theorem wf_cancelTask (id : Nat) (s : QueueState) (h : Wf s) :
    Wf (cancelTask id s).1 := by
  obtain ⟨h1, h2, h3, h4, h5⟩ := h
  unfold cancelTask
  repeat' split
  · refine ⟨h1.erase id, ?_, ?_, h4, ?_⟩
    · exact fun i hi => h2 i (List.mem_of_mem_erase hi)
    · exact fun i hi => h3 i (List.mem_of_mem_erase hi)
    · intro i hi
      rw [findTask_setStatus_isSome]
      exact h5 i (List.mem_of_mem_erase hi)
  · refine ⟨h1, h2, h3, h4, ?_⟩
    intro i hi
    rw [findTask_setStatus_isSome, findTask_setAborted_isSome]
    exact h5 i hi
  · exact ⟨h1, h2, h3, h4, h5⟩

theorem wf_add_inserted (p : TaskPriority) (s : QueueState) (h : Wf s) :
    Wf { s with
      taskIdCounter := s.taskIdCounter + 1
      store := s.store ++ [Task.mk (s.taskIdCounter + 1) p TaskStatus.pending false]
      queue := insertByPriority
        (s.store ++ [Task.mk (s.taskIdCounter + 1) p TaskStatus.pending false])
        (Task.mk (s.taskIdCounter + 1) p TaskStatus.pending false) s.queue } := by
  obtain ⟨h1, h2, h3, h4, h5⟩ := h
  have hfresh : s.taskIdCounter + 1 ∉ s.queue := by
    intro hmem
    exact absurd (h3 _ hmem) (by omega)
  refine ⟨?_, ?_, ?_, ?_, ?_⟩
  · exact nodup_insertByPriority _ _ _ h1 hfresh
  · intro i hi
    rcases (mem_insertByPriority _ _ _ _).mp hi with hEq | hin
    · intro hmem
      exact absurd (h4 _ hmem) (by simp [hEq])
    · exact h2 i hin
  · intro i hi
    rcases (mem_insertByPriority _ _ _ _).mp hi with hEq | hin
    · simp [hEq]
    · exact Nat.le_succ_of_le (h3 i hin)
  · exact fun i hi => Nat.le_succ_of_le (h4 i hi)
  · intro i hi
    rcases (mem_insertByPriority _ _ _ _).mp hi with hEq | hin
    · exact findTask_append_isSome _ _ _ (Or.inr hEq)
    · exact findTask_append_isSome _ _ _ (Or.inl (h5 i hin))

theorem wf_step (e : QEvent) (s : QueueState) (h : Wf s) : Wf (step e s) := by
  obtain ⟨h1, h2, h3, h4, h5⟩ := h
  cases e with
  | add p =>
      simp only [step, addTask]
      split
      · exact wf_processStep _ (wf_add_inserted p s ⟨h1, h2, h3, h4, h5⟩)
      · exact wf_add_inserted p s ⟨h1, h2, h3, h4, h5⟩
  | cancel id => exact wf_cancelTask id s ⟨h1, h2, h3, h4, h5⟩
  | fire i =>
      simp only [step, fireTimeout]
      repeat' split
      · exact ⟨h1, h2, h3, h4, h5⟩
      · exact wf_cancelTask _ _ ⟨h1, h2, h3, h4, h5⟩
      · exact ⟨h1, h2, h3, h4, h5⟩
  | settle i ok =>
      simp only [step, settleExec]
      repeat' split
      · exact ⟨h1, h2, h3, h4, h5⟩
      · exact wf_processStep _ ⟨h1, h2, h3, h4, h5⟩
      · refine wf_processStep _ ⟨h1, h2, h3, h4, ?_⟩
        intro j hj
        rw [findTask_setStatus_isSome]
        exact h5 j hj
      · refine wf_processStep _ ⟨h1, h2, h3, h4, ?_⟩
        intro j hj
        rw [findTask_setStatus_isSome]
        exact h5 j hj
  | pause => exact ⟨h1, h2, h3, h4, h5⟩
  | resume => exact wf_processStep _ ⟨h1, h2, h3, h4, h5⟩
  | setMax m => exact wf_processStep _ ⟨h1, h2, h3, h4, h5⟩
  | clear =>
      refine ⟨List.nodup_nil, ?_, ?_, h4, ?_⟩ <;> intro i hi <;> cases hi

theorem wf_runEvents (evs : List QEvent) (s : QueueState) (h : Wf s) :
    Wf (runEvents evs s) := by
  induction evs generalizing s with
  | nil => exact h
  | cons e rest ih =>
      simpa only [runEvents, List.foldl_cons] using ih (step e s) (wf_step e s h)

theorem wf_mkQueue (opts : QueueOptions) : Wf (mkQueue opts) := by
  refine ⟨List.nodup_nil, ?_, ?_, ?_, ?_⟩ <;> intro i hi <;> cases hi

/-- An id that is not pending, never started, and is within the already
allocated id range: such a task can never be started by any later event. -/
def Untouched (id : Nat) (s : QueueState) : Prop :=
  id ∉ s.queue ∧ id ∉ s.startOrder ∧ id ≤ s.taskIdCounter

theorem untouched_processStep (id : Nat) (s : QueueState) (h : Untouched id s) :
    Untouched id (processStep s) := by
  obtain ⟨h1, h2, h3⟩ := h
  rcases processStep_cases s with hp | ⟨hd, rest, hq, hp⟩
  · rw [hp]
    exact ⟨h1, h2, h3⟩
  · rw [hp]
    have hhd : hd ∈ s.queue := by
      rw [hq]
      exact List.mem_cons_self _ _
    have hne : id ≠ hd := fun hEq => h1 (hEq ▸ hhd)
    refine ⟨?_, ?_, h3⟩
    · intro hmem
      exact h1 (by rw [hq]; exact List.mem_cons_of_mem _ hmem)
    · intro hmem
      rcases List.mem_append.mp hmem with hm | hm
      · exact h2 hm
      · exact hne (List.mem_singleton.mp hm)

theorem untouched_cancelTask (id tid : Nat) (s : QueueState) (h : Untouched id s) :
    Untouched id (cancelTask tid s).1 := by
  obtain ⟨h1, h2, h3⟩ := h
  unfold cancelTask
  repeat' split
  · exact ⟨fun hmem => h1 (List.mem_of_mem_erase hmem), h2, h3⟩
  · exact ⟨h1, h2, h3⟩
  · exact ⟨h1, h2, h3⟩

theorem untouched_step (id : Nat) (e : QEvent) (s : QueueState) (h : Untouched id s) :
    Untouched id (step e s) := by
  obtain ⟨h1, h2, h3⟩ := h
  cases e with
  | add p =>
      simp only [step, addTask]
      have hq : id ∉ insertByPriority
          (s.store ++ [Task.mk (s.taskIdCounter + 1) p TaskStatus.pending false])
          (Task.mk (s.taskIdCounter + 1) p TaskStatus.pending false) s.queue := by
        intro hmem
        rcases (mem_insertByPriority _ _ _ _).mp hmem with hEq | hin
        · have hEq2 : id = s.taskIdCounter + 1 := hEq
          omega
        · exact h1 hin
      split
      · exact untouched_processStep _ _ ⟨hq, h2, Nat.le_succ_of_le h3⟩
      · exact ⟨hq, h2, Nat.le_succ_of_le h3⟩
  | cancel tid => exact untouched_cancelTask id tid s ⟨h1, h2, h3⟩
  | fire i =>
      simp only [step, fireTimeout]
      repeat' split
      · exact ⟨h1, h2, h3⟩
      · exact untouched_cancelTask _ _ _ ⟨h1, h2, h3⟩
      · exact ⟨h1, h2, h3⟩
  | settle i ok =>
      simp only [step, settleExec]
      repeat' split
      · exact ⟨h1, h2, h3⟩
      · exact untouched_processStep _ _ ⟨h1, h2, h3⟩
      · exact untouched_processStep _ _ ⟨h1, h2, h3⟩
      · exact untouched_processStep _ _ ⟨h1, h2, h3⟩
  | pause => exact ⟨h1, h2, h3⟩
  | resume => exact untouched_processStep _ _ ⟨h1, h2, h3⟩
  | setMax m => exact untouched_processStep _ _ ⟨h1, h2, h3⟩
  | clear => exact ⟨List.not_mem_nil _, h2, h3⟩

theorem untouched_runEvents (id : Nat) (evs : List QEvent) (s : QueueState)
    (h : Untouched id s) : Untouched id (runEvents evs s) := by
  induction evs generalizing s with
  | nil => exact h
  | cons e rest ih =>
      simpa only [runEvents, List.foldl_cons] using ih (step e s) (untouched_step id e s h)

theorem cancelTask_false_iff (id : Nat) (s : QueueState) :
    (cancelTask id s).2 = false ↔ id ∉ s.queue ∧ id ∉ s.running := by
  unfold cancelTask
  repeat' split
  all_goals simp_all

/-- C5: in every reachable scheduler state, `cancel(id)` on an id that is
still in the pending queue returns true, removes it from the queue, marks
its status cancelled, and the task is never started — its `run` body is
never invoked — under any further sequence of scheduler events; and
`cancel(id)` returns false exactly when the id is found neither in the
pending queue nor in the running map. -/
theorem C5_cancel_pending_never_runs (opts : QueueOptions) (evs : List QEvent) (id : Nat) :
    (id ∈ (runEvents evs (mkQueue opts)).queue →
      (cancelTask id (runEvents evs (mkQueue opts))).2 = true ∧
      id ∉ (cancelTask id (runEvents evs (mkQueue opts))).1.queue ∧
      statusOf (cancelTask id (runEvents evs (mkQueue opts))).1 id = some TaskStatus.cancelled ∧
      ∀ evs2 : List QEvent,
        id ∉ (runEvents evs2 (cancelTask id (runEvents evs (mkQueue opts))).1).startOrder) ∧
    ((cancelTask id (runEvents evs (mkQueue opts))).2 = false ↔
      id ∉ (runEvents evs (mkQueue opts)).queue ∧
      id ∉ (runEvents evs (mkQueue opts)).running) := by
  obtain ⟨h1, h2, h3, h4, h5⟩ := wf_runEvents evs (mkQueue opts) (wf_mkQueue opts)
  constructor
  · intro hmem
    have hc : cancelTask id (runEvents evs (mkQueue opts)) =
        ({ (runEvents evs (mkQueue opts)) with
            queue := (runEvents evs (mkQueue opts)).queue.erase id,
            store := setStatus (runEvents evs (mkQueue opts)).store id TaskStatus.cancelled },
          true) := by
      unfold cancelTask
      rw [if_pos hmem]
    refine ⟨by rw [hc], ?_, ?_, ?_⟩
    · rw [hc]
      intro hmem2
      exact ((h1.mem_erase_iff).mp hmem2).1 rfl
    · rw [hc]
      exact status_setStatus _ _ _ (h5 id hmem)
    · intro evs2
      have hu : Untouched id (cancelTask id (runEvents evs (mkQueue opts))).1 := by
        rw [hc]
        exact ⟨fun hm => ((h1.mem_erase_iff).mp hm).1 rfl, h2 id hmem, h3 id hmem⟩
      exact (untouched_runEvents id evs2 _ hu).2.1
  · exact cancelTask_false_iff id _

/-- C5 witness: pause, add one task (id 1, still pending); cancelling it
returns true, removes it, marks it cancelled, and it never starts across a
later resume, add and settle; cancelling the unknown id 99 returns false. -/
theorem C5_cancel_pending_never_runs_witness :
    (cancelTask 1 (runEvents [QEvent.pause, QEvent.add TaskPriority.normal] (mkQueue {}))).2 =
      true ∧
    1 ∉ (cancelTask 1 (runEvents [QEvent.pause, QEvent.add TaskPriority.normal]
      (mkQueue {}))).1.queue ∧
    statusOf (cancelTask 1 (runEvents [QEvent.pause, QEvent.add TaskPriority.normal]
      (mkQueue {}))).1 1 = some TaskStatus.cancelled ∧
    1 ∉ (runEvents [QEvent.resume, QEvent.add TaskPriority.high, QEvent.settle 0 true]
      (cancelTask 1 (runEvents [QEvent.pause, QEvent.add TaskPriority.normal]
        (mkQueue {}))).1).startOrder ∧
    (cancelTask 99 (runEvents [QEvent.pause, QEvent.add TaskPriority.normal]
      (mkQueue {}))).2 = false := by
  have h1 := C5_cancel_pending_never_runs {} [QEvent.pause, QEvent.add TaskPriority.normal] 1
  have h99 := C5_cancel_pending_never_runs {} [QEvent.pause, QEvent.add TaskPriority.normal] 99
  have hmem : 1 ∈ (runEvents [QEvent.pause, QEvent.add TaskPriority.normal]
      (mkQueue {})).queue := by decide
  obtain ⟨ha, hb, hcst, hd⟩ := h1.1 hmem
  exact ⟨ha, hb, hcst, hd _, h99.2.mpr (by decide)⟩

/-
Part 2 models the `CacheManager` (content-addressed output cache with TTL
expiry and LRU eviction).  `generateParamsHash` computes the MD5 hex digest
of `JSON.stringify({ inputPath, ...options })`; MD5 and the relevant part of
JSON serialization are embedded below.  Machine words are naturals reduced
mod 2^32 where the code uses 32-bit arithmetic.
-/

/-- The 64 MD5 round constants (floor(abs(sin(i+1)) * 2^32)). -/
def md5K : List Nat :=
  [3614090360, 3905402710, 606105819, 3250441966,
   4118548399, 1200080426, 2821735955, 4249261313,
   1770035416, 2336552879, 4294925233, 2304563134,
   1804603682, 4254626195, 2792965006, 1236535329,
   4129170786, 3225465664, 643717713, 3921069994,
   3593408605, 38016083, 3634488961, 3889429448,
   568446438, 3275163606, 4107603335, 1163531501,
   2850285829, 4243563512, 1735328473, 2368359562,
   4294588738, 2272392833, 1839030562, 4259657740,
   2763975236, 1272893353, 4139469664, 3200236656,
   681279174, 3936430074, 3572445317, 76029189,
   3654602809, 3873151461, 530742520, 3299628645,
   4096336452, 1126891415, 2878612391, 4237533241,
   1700485571, 2399980690, 4293915773, 2240044497,
   1873313359, 4264355552, 2734768916, 1309151649,
   4149444226, 3174756917, 718787259, 3951481745]

/-- The per-round left-rotation amounts of MD5. -/
def md5S : List Nat :=
  [7, 12, 17, 22, 7, 12, 17, 22, 7, 12, 17, 22, 7, 12, 17, 22,
   5, 9, 14, 20, 5, 9, 14, 20, 5, 9, 14, 20, 5, 9, 14, 20,
   4, 11, 16, 23, 4, 11, 16, 23, 4, 11, 16, 23, 4, 11, 16, 23,
   6, 10, 15, 21, 6, 10, 15, 21, 6, 10, 15, 21, 6, 10, 15, 21]

/-- 32-bit left rotation (inputs below 2^32). -/
def rotl32 (x n : Nat) : Nat :=
  ((x <<< n) ||| (x >>> (32 - n))) % 4294967296

def md5F (b c d : Nat) : Nat := (b &&& c) ||| ((b ^^^ 4294967295) &&& d)

def md5G (b c d : Nat) : Nat := (b &&& d) ||| (c &&& (d ^^^ 4294967295))

def md5H (b c d : Nat) : Nat := b ^^^ c ^^^ d

def md5I (b c d : Nat) : Nat := c ^^^ (b ||| (d ^^^ 4294967295))

/-- One MD5 round on state (a, b, c, d) with message words `m`. -/
def md5Round (m : List Nat) (st : Nat × Nat × Nat × Nat) (i : Nat) :
    Nat × Nat × Nat × Nat :=
  let a := st.1
  let b := st.2.1
  let c := st.2.2.1
  let d := st.2.2.2
  let fg : Nat × Nat :=
    if i < 16 then (md5F b c d, i)
    else if i < 32 then (md5G b c d, (5 * i + 1) % 16)
    else if i < 48 then (md5H b c d, (3 * i + 5) % 16)
    else (md5I b c d, (7 * i) % 16)
  let f := (fg.1 + a + md5K.getD i 0 + m.getD fg.2 0) % 4294967296
  (d, (b + rotl32 f (md5S.getD i 0)) % 4294967296, b, c)

/-- Process one 16-word block. -/
def md5ProcessBlock (st : Nat × Nat × Nat × Nat) (m : List Nat) :
    Nat × Nat × Nat × Nat :=
  let r := (List.range 64).foldl (fun acc i => md5Round m acc i) st
  ((st.1 + r.1) % 4294967296, (st.2.1 + r.2.1) % 4294967296,
   (st.2.2.1 + r.2.2.1) % 4294967296, (st.2.2.2 + r.2.2.2) % 4294967296)

/-- Little-endian byte decomposition, `n` bytes. -/
def toLEBytes : Nat → Nat → List Nat
  | 0, _ => []
  | n + 1, x => (x % 256) :: toLEBytes n (x / 256)

/-- Group bytes into little-endian 32-bit words. -/
def bytesToWordsLE : List Nat → List Nat
  | b0 :: b1 :: b2 :: b3 :: rest =>
      (b0 + 256 * b1 + 65536 * b2 + 16777216 * b3) :: bytesToWordsLE rest
  | _ => []

/-- Chunk a word list into successive 16-word blocks (the padded message
length is a multiple of 64 bytes, so no words are left over). -/
def wordsToBlocks : List Nat → List (List Nat)
  | w0 :: w1 :: w2 :: w3 :: w4 :: w5 :: w6 :: w7 ::
      w8 :: w9 :: w10 :: w11 :: w12 :: w13 :: w14 :: w15 :: rest =>
      [w0, w1, w2, w3, w4, w5, w6, w7, w8, w9, w10, w11, w12, w13, w14, w15] ::
        wordsToBlocks rest
  | _ => []

/-- MD5 padding: 0x80, zeros to 56 mod 64, then the 64-bit little-endian
bit length. -/
def md5Pad (msg : List Nat) : List Nat :=
  let len := msg.length
  let padLen := (119 - len % 64) % 64
  msg ++ [128] ++ List.replicate padLen 0 ++
    toLEBytes 8 ((8 * len) % 18446744073709551616)

def hexDigit (n : Nat) : Char :=
  if n < 10 then Char.ofNat (48 + n) else Char.ofNat (87 + n)

def byteToHex (b : Nat) : List Char := [hexDigit (b / 16), hexDigit (b % 16)]

/-- MD5 digest of a byte list, as a lowercase hex string. -/
def md5Hex (msg : List Nat) : String :=
  let blocks := wordsToBlocks (bytesToWordsLE (md5Pad msg))
  let r := blocks.foldl md5ProcessBlock (1732584193, 4023233417, 2562383102, 271733878)
  String.mk (((toLEBytes 4 r.1 ++ toLEBytes 4 r.2.1 ++ toLEBytes 4 r.2.2.1 ++
    toLEBytes 4 r.2.2.2).map byteToHex).flatten)

/-- UTF-8 encoding of a code point. -/
def utf8Bytes (c : Nat) : List Nat :=
  if c < 128 then [c]
  else if c < 2048 then [192 + c / 64, 128 + c % 64]
  else if c < 65536 then [224 + c / 4096, 128 + (c / 64) % 64, 128 + c % 64]
  else [240 + c / 262144, 128 + (c / 4096) % 64, 128 + (c / 64) % 64, 128 + c % 64]

def strToBytes (s : String) : List Nat :=
  (s.toList.map (fun ch => utf8Bytes ch.toNat)).flatten

/-- `createHash('md5').update(s).digest('hex')` for a string (utf-8). -/
def md5HexOfString (s : String) : String := md5Hex (strToBytes s)

/-- A JSON-serializable option value. -/
inductive JVal where
  | str (s : String)
  | num (n : Int)
  | bool (b : Bool)
deriving DecidableEq, Repr

/-- JSON string-character escaping as performed by `JSON.stringify`. -/
def jsonEscapeChar (c : Char) : List Char :=
  if c = '\"' then ['\\', '\"']
  else if c = '\\' then ['\\', '\\']
  else if c = Char.ofNat 8 then ['\\', 'b']
  else if c = Char.ofNat 9 then ['\\', 't']
  else if c = Char.ofNat 10 then ['\\', 'n']
  else if c = Char.ofNat 12 then ['\\', 'f']
  else if c = Char.ofNat 13 then ['\\', 'r']
  else if c.toNat < 32 then
    ['\\', 'u', '0', '0', hexDigit (c.toNat / 16), hexDigit (c.toNat % 16)]
  else [c]

def jsonQuote (s : String) : String :=
  String.mk ('\"' :: (s.toList.map jsonEscapeChar).flatten ++ ['\"'])

def jvalToJson : JVal → String
  | JVal.str s => jsonQuote s
  | JVal.num n => toString n
  | JVal.bool b => cond b "true" "false"

/-- Property assignment into an object: overwrite in place if the key
exists, append otherwise (JavaScript object property order). -/
def objUpsert (obj : List (String × JVal)) (k : String) (v : JVal) :
    List (String × JVal) :=
  if obj.any (fun p => p.1 == k) then
    obj.map (fun p => if p.1 == k then (p.1, v) else p)
  else
    obj ++ [(k, v)]

/-- The object literal `{ inputPath, ...options }`: the `inputPath`
property first, then the options' own enumerable entries spread in their
insertion order. -/
def buildHashObj (inputPath : String) (options : List (String × JVal)) :
    List (String × JVal) :=
  options.foldl (fun acc p => objUpsert acc p.1 p.2) [("inputPath", JVal.str inputPath)]

/-- `JSON.stringify` of an object: members in property order. -/
def stringifyObj (obj : List (String × JVal)) : String :=
  "\x7b" ++ String.intercalate ","
    (obj.map (fun p => jsonQuote p.1 ++ ":" ++ jvalToJson p.2)) ++ "\x7d"

/-- `CacheManager.generateParamsHash`: MD5 hex digest of
`JSON.stringify({ inputPath, ...options })`.  The `catch` fallback of the
source is unreachable here because serialization of these values cannot
throw. -/
def generateParamsHash (inputPath : String) (options : List (String × JVal)) : String :=
  md5HexOfString (stringifyObj (buildHashObj inputPath options))

/-- `CacheManager.getCacheKey` simply delegates to `generateParamsHash`. -/
def getCacheKey (inputPath : String) (options : List (String × JVal)) : String :=
  generateParamsHash inputPath options

/-- C6: the hash is not insensitive to the insertion order of the options'
keys.  `JSON.stringify({ inputPath, ...options })` serializes properties in
insertion order without canonicalization, so two options objects holding
the same key–value pairs in different insertion orders (a permutation of
each other) produce different serialized strings and different MD5 keys. -/
theorem C6_hash_depends_on_key_order :
    List.Perm [("b", JVal.str "1"), ("c", JVal.str "2")]
      [("c", JVal.str "2"), ("b", JVal.str "1")] ∧
    generateParamsHash "in.mp4" [("b", JVal.str "1"), ("c", JVal.str "2")] =
      "b51e382c08d0eca4c97aca24ea275ab4" ∧
    generateParamsHash "in.mp4" [("c", JVal.str "2"), ("b", JVal.str "1")] =
      "5cb5499d458875dfa6cb2643d951896a" ∧
    generateParamsHash "in.mp4" [("b", JVal.str "1"), ("c", JVal.str "2")] ≠
      generateParamsHash "in.mp4" [("c", JVal.str "2"), ("b", JVal.str "1")] := by
  refine ⟨?_, by decide, by decide, by decide⟩
  decide

/-- `CacheEntry` from the cache module (timestamps in milliseconds). -/
structure CacheEntry where
  key : String
  inputPath : String
  outputPath : String
  paramsHash : String
  createdAt : Nat
  expiresAt : Nat
  size : Nat
  lastAccessedAt : Nat
deriving DecidableEq, Repr

/-- The in-memory state of a `CacheManager` together with the backing file
store (paths with byte sizes) that `existsSync`/`statSync`/`unlinkSync`
read and mutate.  `manifest` models the insertion-ordered JS `Map`;
`hits`/`misses` are the statistics counters.  The debounced manifest
persistence (`markDirty`/`saveManifest` and its file locking) only mirrors
`manifest` to disk and has no effect on any of the operations modelled
here.  `Date.now()` is passed explicitly to each operation. -/
structure CacheState where
  enabled : Bool
  ttl : Nat
  maxSize : Nat
  manifest : List (String × CacheEntry)
  hits : Nat
  misses : Nat
  fs : List (String × Nat)
deriving DecidableEq, Repr

/-- `existsSync`. -/
def existsSync (p : String) (fs : List (String × Nat)) : Bool :=
  (fs.find? (fun e => e.1 == p)).isSome

/-- `statSync(p).size`. -/
def statSize (p : String) (fs : List (String × Nat)) : Nat :=
  match fs.find? (fun e => e.1 == p) with
  | some e => e.2
  | none => 0

/-- `unlinkSync`. -/
def unlinkSync (p : String) (fs : List (String × Nat)) : List (String × Nat) :=
  fs.filter (fun e => e.1 != p)

/-- JS `Map.get`. -/
def mapGet (m : List (String × CacheEntry)) (k : String) : Option CacheEntry :=
  (m.find? (fun p => p.1 == k)).map Prod.snd

/-- JS `Map.set`: overwrite in place when the key is present (insertion
order is preserved), append otherwise. -/
def mapSet (m : List (String × CacheEntry)) (k : String) (v : CacheEntry) :
    List (String × CacheEntry) :=
  if m.any (fun p => p.1 == k) then
    m.map (fun p => if p.1 == k then (k, v) else p)
  else
    m ++ [(k, v)]

/-- JS `Map.delete`. -/
def mapDelete (m : List (String × CacheEntry)) (k : String) :
    List (String × CacheEntry) :=
  m.filter (fun p => p.1 != k)

/-- `CacheManager.delete`: unlink the entry's backing file when it exists
(unlink errors are logged and ignored; the manifest entry is removed
regardless), then delete the manifest entry. -/
def cacheDelete (key : String) (s : CacheState) : CacheState :=
  match mapGet s.manifest key with
  | none => s
  | some e =>
    let fs1 := if existsSync e.outputPath s.fs then unlinkSync e.outputPath s.fs else s.fs
    { s with fs := fs1, manifest := mapDelete s.manifest key }

/-- `CacheManager.has`: false when disabled or unknown; expired or
file-less entries are deleted lazily and reported as absent. -/
def cacheHas (now : Nat) (key : String) (s : CacheState) : Bool × CacheState :=
  if !s.enabled then (false, s)
  else
    match mapGet s.manifest key with
    | none => (false, s)
    | some e =>
      if e.expiresAt < now then (false, cacheDelete key s)
      else if !existsSync e.outputPath s.fs then (false, cacheDelete key s)
      else (true, s)

/-- `CacheManager.get`: null plus a miss unless `has` is true; on a hit,
refresh `lastAccessedAt`, count a hit and return the output path. -/
def cacheGet (now : Nat) (key : String) (s : CacheState) : Option String × CacheState :=
  let hs := cacheHas now key s
  if !hs.1 then (none, { hs.2 with misses := hs.2.misses + 1 })
  else
    match mapGet hs.2.manifest key with
    | none => (none, { hs.2 with misses := hs.2.misses + 1 })
    | some e =>
      (some e.outputPath,
        { hs.2 with
          manifest := mapSet hs.2.manifest key { e with lastAccessedAt := now }
          hits := hs.2.hits + 1 })

/-- `getStats().totalSize`: aggregate of the entry sizes. -/
def totalSize (m : List (String × CacheEntry)) : Nat :=
  (m.map (fun p => p.2.size)).sum

/-- `CacheManager.cleanupExpired`: collect every expired key, then delete
each one. -/
def cleanupExpired (now : Nat) (s : CacheState) : CacheState :=
  ((s.manifest.filter (fun p => p.2.expiresAt < now)).map Prod.fst).foldl
    (fun st k => cacheDelete k st) s

/-- Stable insertion for the LRU sort (strict comparison places an entry
before later entries with an equal `lastAccessedAt`, matching the
stability of `Array.prototype.sort`). -/
def insertLRU (e : CacheEntry) : List CacheEntry → List CacheEntry
  | [] => [e]
  | x :: xs =>
    if x.lastAccessedAt < e.lastAccessedAt then x :: insertLRU e xs
    else e :: x :: xs

/-- `sort((a, b) => a.lastAccessedAt - b.lastAccessedAt)`: stable sort by
`lastAccessedAt` ascending. -/
def sortLRU (l : List CacheEntry) : List CacheEntry :=
  l.foldr insertLRU []

/-- The eviction loop of `evictIfNeeded`: walk the LRU-sorted snapshot,
deleting entries and decrementing the running tally until it is at most
80% of the max size.  The float comparison `currentSize <= maxSize * 0.8`
is modelled exactly as `5 * currentSize ≤ 4 * maxSize`. -/
def evictLoop (maxSize : Nat) : List CacheEntry → Nat → CacheState → CacheState
  | [], _, s => s
  | e :: rest, cur, s =>
    if 5 * cur ≤ 4 * maxSize then s
    else evictLoop maxSize rest (cur - e.size) (cacheDelete e.key s)

/-- `CacheManager.evictIfNeeded`: cleanup expired entries first; stop if
the aggregate is within `maxSize`; otherwise evict least-recently-used
entries first. -/
def evictIfNeeded (now : Nat) (s : CacheState) : CacheState :=
  let s1 := cleanupExpired now s
  let tot := totalSize s1.manifest
  if tot ≤ s1.maxSize then s1
  else evictLoop s1.maxSize (sortLRU (s1.manifest.map Prod.snd)) tot s1

/-- `CacheManager.set`: no-op when disabled; otherwise evict-if-needed
first, then upsert a fresh entry whose size is read from the output file
(0 when absent/unreadable) and whose `expiresAt` is `now + ttl * 1000`. -/
def cacheSet (now : Nat) (key inputPath outputPath : String)
    (options : List (String × JVal)) (s : CacheState) : CacheState :=
  if !s.enabled then s
  else
    let s1 := evictIfNeeded now s
    let e : CacheEntry :=
      { key := key
        inputPath := inputPath
        outputPath := outputPath
        paramsHash := generateParamsHash inputPath options
        createdAt := now
        expiresAt := now + s1.ttl * 1000
        size := if existsSync outputPath s1.fs then statSize outputPath s1.fs else 0
        lastAccessedAt := now }
    { s1 with manifest := mapSet s1.manifest key e }

/-- `CacheManager.clear`: unlink every entry's backing file, then empty
the manifest. -/
def cacheClear (s : CacheState) : CacheState :=
  { s with
    fs := s.manifest.foldl
      (fun fs p => if existsSync p.2.outputPath fs then unlinkSync p.2.outputPath fs else fs)
      s.fs
    manifest := [] }

/-- The `CacheManager` constructor: `ttl || 86400` seconds and
`maxSize || 1 GiB` (0 stands for an absent/falsy option). -/
def mkCache (enabled : Bool) (ttl maxSize : Nat) (fs : List (String × Nat)) : CacheState :=
  { enabled := enabled
    ttl := if ttl = 0 then 86400 else ttl
    maxSize := if maxSize = 0 then 1073741824 else maxSize
    manifest := []
    hits := 0
    misses := 0
    fs := fs }

theorem mapGet_mapDelete (m : List (String × CacheEntry)) (k : String) :
    mapGet (mapDelete m k) k = none := by
  unfold mapGet mapDelete
  induction m with
  | nil => rfl
  | cons p ps ih =>
      by_cases h : p.1 = k
      · simp [List.filter_cons, h]
      · simp [List.filter_cons, h, List.find?_cons_of_neg]

theorem mapGet_cacheDelete (key : String) (s : CacheState) :
    mapGet (cacheDelete key s).manifest key = none := by
  unfold cacheDelete
  cases hm : mapGet s.manifest key with
  | none => exact hm
  | some e => exact mapGet_mapDelete s.manifest key

theorem existsSync_unlink (p : String) (fs : List (String × Nat)) :
    existsSync p (unlinkSync p fs) = false := by
  unfold existsSync unlinkSync
  induction fs with
  | nil => rfl
  | cons q qs ih =>
      by_cases h : q.1 = p
      · simp [List.filter_cons, h]
      · simp [List.filter_cons, h, List.find?_cons_of_neg]

theorem mapGet_mapSet (m : List (String × CacheEntry)) (k : String) (v : CacheEntry) :
    mapGet (mapSet m k v) k = some v := by
  unfold mapSet
  split
  · rename_i hany
    induction m with
    | nil => simp at hany
    | cons q qs ih =>
        by_cases hq : q.1 = k
        · unfold mapGet
          simp [hq]
        · have hqs : qs.any (fun p => p.1 == k) = true := by
            simp only [List.any_cons] at hany
            rcases Bool.or_eq_true_iff.mp hany with h | h
            · exact absurd (by simpa using h) hq
            · exact h
          unfold mapGet at ih ⊢
          simpa [hq, List.find?_cons_of_neg] using ih hqs
  · rename_i hany
    unfold mapGet
    rw [List.find?_append]
    have hnone : m.find? (fun p => p.1 == k) = none := by
      rw [List.find?_eq_none]
      intro p hp hpk
      exact hany (List.any_eq_true.mpr ⟨p, hp, hpk⟩)
    rw [hnone]
    simp [Option.or]

/-- C8: with the cache enabled, `has(key)` is false for an unknown key;
false — deleting the entry lazily — when the entry is past `expiresAt` or
its backing output file is missing; and true otherwise.  The deletion is
observable only as the entry's removal (no error reaches the caller: the
model of `delete` is total, mirroring its internal try/catch). -/
theorem C8_has_checks_expiry_and_file (now : Nat) (key : String) (s : CacheState)
    (henabled : s.enabled = true) :
    (mapGet s.manifest key = none → cacheHas now key s = (false, s)) ∧
    (∀ e, mapGet s.manifest key = some e → e.expiresAt < now →
      cacheHas now key s = (false, cacheDelete key s) ∧
      mapGet (cacheHas now key s).2.manifest key = none) ∧
    (∀ e, mapGet s.manifest key = some e → ¬ e.expiresAt < now →
      existsSync e.outputPath s.fs = false →
      cacheHas now key s = (false, cacheDelete key s) ∧
      mapGet (cacheHas now key s).2.manifest key = none) ∧
    (∀ e, mapGet s.manifest key = some e → ¬ e.expiresAt < now →
      existsSync e.outputPath s.fs = true →
      cacheHas now key s = (true, s)) := by
  refine ⟨?_, ?_, ?_, ?_⟩
  · intro hm
    simp [cacheHas, henabled, hm]
  · intro e hm hexp
    have hh : cacheHas now key s = (false, cacheDelete key s) := by
      simp [cacheHas, henabled, hm, hexp]
    exact ⟨hh, by rw [hh]; exact mapGet_cacheDelete key s⟩
  · intro e hm hexp hfile
    have hh : cacheHas now key s = (false, cacheDelete key s) := by
      simp [cacheHas, henabled, hm, hexp, hfile]
    exact ⟨hh, by rw [hh]; exact mapGet_cacheDelete key s⟩
  · intro e hm hexp hfile
    simp [cacheHas, henabled, hm, hexp, hfile]

/-- A cache state used by the witnesses: entry "k" (size 7, expires at
time 5, backing file "out" of size 7 present) plus a fresh entry "k2"
(expires at 999999, file "out2" present). -/
def witnessCache : CacheState :=
  { enabled := true
    ttl := 86400
    maxSize := 100
    manifest := [("k", ⟨"k", "in", "out", "h", 0, 5, 7, 0⟩),
                 ("k2", ⟨"k2", "in2", "out2", "h2", 0, 999999, 9, 1⟩)]
    hits := 0
    misses := 0
    fs := [("out", 7), ("out2", 9)] }

/-- C8 witness: at time 6 the "k" entry of `witnessCache` is expired, so
`has` deletes it and returns false; the fresh "k2" entry reports true; an
unknown key reports false. -/
theorem C8_has_checks_expiry_and_file_witness :
    cacheHas 6 "nope" witnessCache = (false, witnessCache) ∧
    cacheHas 6 "k" witnessCache = (false, cacheDelete "k" witnessCache) ∧
    mapGet (cacheHas 6 "k" witnessCache).2.manifest "k" = none ∧
    cacheHas 6 "k2" witnessCache = (true, witnessCache) := by
  have h1 := (C8_has_checks_expiry_and_file 6 "nope" witnessCache (by decide)).1 (by decide)
  have h2 := (C8_has_checks_expiry_and_file 6 "k" witnessCache (by decide)).2.1
    ⟨"k", "in", "out", "h", 0, 5, 7, 0⟩ (by decide) (by decide)
  have h3 := (C8_has_checks_expiry_and_file 6 "k2" witnessCache (by decide)).2.2.2
    ⟨"k2", "in2", "out2", "h2", 0, 999999, 9, 1⟩ (by decide) (by decide) (by decide)
  exact ⟨h1, h2.1, h2.2, h3⟩

theorem cacheDelete_config (key : String) (s : CacheState) :
    (cacheDelete key s).enabled = s.enabled ∧ (cacheDelete key s).ttl = s.ttl ∧
    (cacheDelete key s).maxSize = s.maxSize := by
  unfold cacheDelete
  repeat' split
  all_goals exact ⟨rfl, rfl, rfl⟩

theorem foldl_cacheDelete_config (ks : List String) (s : CacheState) :
    (ks.foldl (fun st k => cacheDelete k st) s).enabled = s.enabled ∧
    (ks.foldl (fun st k => cacheDelete k st) s).ttl = s.ttl ∧
    (ks.foldl (fun st k => cacheDelete k st) s).maxSize = s.maxSize := by
  induction ks generalizing s with
  | nil => exact ⟨rfl, rfl, rfl⟩
  | cons k ks ih =>
      have h1 := cacheDelete_config k s
      have h2 := ih (cacheDelete k s)
      simp only [List.foldl_cons]
      exact ⟨h2.1.trans h1.1, h2.2.1.trans h1.2.1, h2.2.2.trans h1.2.2⟩

theorem cleanupExpired_config (now : Nat) (s : CacheState) :
    (cleanupExpired now s).enabled = s.enabled ∧ (cleanupExpired now s).ttl = s.ttl ∧
    (cleanupExpired now s).maxSize = s.maxSize :=
  foldl_cacheDelete_config _ s

theorem evictLoop_config (maxSize : Nat) (entries : List CacheEntry) (cur : Nat)
    (s : CacheState) :
    (evictLoop maxSize entries cur s).enabled = s.enabled ∧
    (evictLoop maxSize entries cur s).ttl = s.ttl ∧
    (evictLoop maxSize entries cur s).maxSize = s.maxSize := by
  induction entries generalizing cur s with
  | nil => exact ⟨rfl, rfl, rfl⟩
  | cons e rest ih =>
      unfold evictLoop
      split
      · exact ⟨rfl, rfl, rfl⟩
      · have h1 := cacheDelete_config e.key s
        have h2 := ih (cur - e.size) (cacheDelete e.key s)
        exact ⟨h2.1.trans h1.1, h2.2.1.trans h1.2.1, h2.2.2.trans h1.2.2⟩

theorem evictIfNeeded_config (now : Nat) (s : CacheState) :
    (evictIfNeeded now s).enabled = s.enabled ∧ (evictIfNeeded now s).ttl = s.ttl ∧
    (evictIfNeeded now s).maxSize = s.maxSize := by
  have h1 := cleanupExpired_config now s
  have h2 := evictLoop_config (cleanupExpired now s).maxSize
    (sortLRU ((cleanupExpired now s).manifest.map Prod.snd))
    (totalSize (cleanupExpired now s).manifest) (cleanupExpired now s)
  simp only [evictIfNeeded]
  split
  · exact h1
  · exact ⟨h2.1.trans h1.1, h2.2.1.trans h1.2.1, h2.2.2.trans h1.2.2⟩

/-- A `get` at time `now2` on a state whose manifest maps `key` to a fresh
entry with an existing backing file returns the entry's output path. -/
theorem get_after_mapSet (now2 : Nat) (key : String) (e : CacheEntry) (s : CacheState)
    (hen : s.enabled = true) (hexp : ¬ e.expiresAt < now2)
    (hfile : existsSync e.outputPath s.fs = true)
    (hman : mapGet s.manifest key = some e) :
    (cacheGet now2 key s).1 = some e.outputPath := by
  have hh : cacheHas now2 key s = (true, s) := by
    simp [cacheHas, hen, hman, hexp, hfile]
  simp [cacheGet, hh, hman]

/-- C9: with the cache enabled, `set(key, ip, op, options)` followed by
`get(key)` returns that same `op`, for any read time at which the entry has
not yet expired (`now2 ≤ now + ttl*1000`), provided the output file exists
on the backing store after the `set` (i.e. the entry has not been
invalidated by file loss or evicted in between). -/
theorem C9_set_then_get_roundtrip (now now2 : Nat) (key ip op : String)
    (opts : List (String × JVal)) (s : CacheState)
    (henabled : s.enabled = true)
    (hfile : existsSync op (cacheSet now key ip op opts s).fs = true)
    (hfresh : ¬ now + s.ttl * 1000 < now2) :
    (cacheGet now2 key (cacheSet now key ip op opts s)).1 = some op := by
  have hcfg := evictIfNeeded_config now s
  have hset : cacheSet now key ip op opts s =
      { (evictIfNeeded now s) with
        manifest := mapSet (evictIfNeeded now s).manifest key
          (CacheEntry.mk key ip op (generateParamsHash ip opts) now
            (now + (evictIfNeeded now s).ttl * 1000)
            (if existsSync op (evictIfNeeded now s).fs then
              statSize op (evictIfNeeded now s).fs else 0) now) } := by
    simp [cacheSet, henabled]
  rw [hset] at hfile ⊢
  refine get_after_mapSet now2 key
    (CacheEntry.mk key ip op (generateParamsHash ip opts) now
      (now + (evictIfNeeded now s).ttl * 1000)
      (if existsSync op (evictIfNeeded now s).fs then
        statSize op (evictIfNeeded now s).fs else 0) now)
    _ ?_ ?_ ?_ (mapGet_mapSet _ _ _)
  · exact hcfg.1.trans henabled
  · show ¬ now + (evictIfNeeded now s).ttl * 1000 < now2
    rw [hcfg.2.1]
    exact hfresh
  · exact hfile

/-- C9 witness: `witnessCache` is enabled; setting key "kw" to output
"out2" at time 10 then reading it at time 11 returns "out2". -/
theorem C9_set_then_get_roundtrip_witness :
    (cacheGet 11 "kw" (cacheSet 10 "kw" "inw" "out2" [] witnessCache)).1 = some "out2" :=
  C9_set_then_get_roundtrip 10 11 "kw" "inw" "out2" [] witnessCache (by decide)
    (by decide) (by decide)

theorem existsSync_unlink_other (q p : String) (fs : List (String × Nat))
    (h : existsSync q fs = false) : existsSync q (unlinkSync p fs) = false := by
  unfold existsSync at h ⊢
  unfold unlinkSync
  cases hf : (fs.filter (fun e => e.1 != p)).find? (fun e => e.1 == q) with
  | none => rfl
  | some e =>
      have he := List.find?_some (p := fun e : String × Nat => e.1 == q) hf
      have hmem := List.mem_of_find?_eq_some
        (p := fun e : String × Nat => e.1 == q) hf
      have hsome : (fs.find? (fun e => e.1 == q)).isSome = true := by
        rw [List.find?_isSome]
        exact ⟨e, List.mem_of_mem_filter hmem, he⟩
      rw [hsome] at h
      cases h

/-- A path absent from the backing store stays absent through the
file-unlinking fold of `clear`. -/
theorem clearFold_not_exists_mono (q : String) (l : List (String × CacheEntry))
    (fs : List (String × Nat)) (h : existsSync q fs = false) :
    existsSync q (l.foldl (fun fs p => if existsSync p.2.outputPath fs then
      unlinkSync p.2.outputPath fs else fs) fs) = false := by
  induction l generalizing fs with
  | nil => exact h
  | cons p ps ih =>
      simp only [List.foldl_cons]
      apply ih
      split
      · exact existsSync_unlink_other q _ fs h
      · exact h

/-- `CacheManager.clear` unlinks every manifest entry's backing file. -/
theorem cacheClear_removes_files (s : CacheState) :
    ∀ p ∈ s.manifest, existsSync p.2.outputPath (cacheClear s).fs = false := by
  suffices h : ∀ (l : List (String × CacheEntry)) (fs : List (String × Nat)),
      ∀ p ∈ l, existsSync p.2.outputPath (l.foldl (fun fs p =>
        if existsSync p.2.outputPath fs then unlinkSync p.2.outputPath fs else fs)
        fs) = false by
    exact h s.manifest s.fs
  intro l
  induction l with
  | nil =>
      intro fs p hp
      cases hp
  | cons q qs ih =>
      intro fs p hp
      simp only [List.foldl_cons]
      rcases List.mem_cons.mp hp with hEq | hmem
      · subst hEq
        apply clearFold_not_exists_mono
        split
        · exact existsSync_unlink _ _
        · rename_i hx
          cases h2 : existsSync p.2.outputPath fs
          · rfl
          · exact absurd h2 hx
      · exact ih _ p hmem

/-- C10: with the cache disabled, `has` returns false and leaves the state
unchanged; `set` is a no-op; `get` returns null and counts a miss; while
`delete` still removes the manifest entry and its backing file, and
`clear` still empties the manifest and unlinks every entry's backing
file. -/
theorem C10_disabled_cache (now : Nat) (key ip op : String)
    (opts : List (String × JVal)) (s : CacheState)
    (hdis : s.enabled = false) :
    cacheHas now key s = (false, s) ∧
    cacheSet now key ip op opts s = s ∧
    cacheGet now key s = (none, { s with misses := s.misses + 1 }) ∧
    mapGet (cacheDelete key s).manifest key = none ∧
    (∀ e, mapGet s.manifest key = some e →
      existsSync e.outputPath (cacheDelete key s).fs = false) ∧
    (cacheClear s).manifest = [] ∧
    (∀ p ∈ s.manifest, existsSync p.2.outputPath (cacheClear s).fs = false) := by
  have hh : cacheHas now key s = (false, s) := by
    simp [cacheHas, hdis]
  refine ⟨hh, ?_, ?_, mapGet_cacheDelete key s, ?_, rfl, cacheClear_removes_files s⟩
  · simp [cacheSet, hdis]
  · simp [cacheGet, hh]
  · intro e hm
    unfold cacheDelete
    rw [hm]
    by_cases hex : existsSync e.outputPath s.fs = true
    · simp only [hex, if_true]
      exact existsSync_unlink _ _
    · have hex2 : existsSync e.outputPath s.fs = false := by
        cases h : existsSync e.outputPath s.fs
        · rfl
        · exact absurd h hex
      simp [hex2]

/-- A disabled variant of the witness cache state. -/
def witnessCacheOff : CacheState := { witnessCache with enabled := false }

/-- C10 witness: on the disabled cache, `has` is false and stateless, `set`
is a no-op, `get` is a counted miss, `delete "k"` removes the entry and
its file "out", and `clear` empties the manifest and unlinks both backing
files "out" and "out2". -/
theorem C10_disabled_cache_witness :
    cacheHas 6 "k" witnessCacheOff = (false, witnessCacheOff) ∧
    cacheSet 6 "kx" "i" "o" [] witnessCacheOff = witnessCacheOff ∧
    cacheGet 6 "k" witnessCacheOff =
      (none, { witnessCacheOff with misses := witnessCacheOff.misses + 1 }) ∧
    mapGet (cacheDelete "k" witnessCacheOff).manifest "k" = none ∧
    existsSync "out" (cacheDelete "k" witnessCacheOff).fs = false ∧
    (cacheClear witnessCacheOff).manifest = [] ∧
    existsSync "out" (cacheClear witnessCacheOff).fs = false ∧
    existsSync "out2" (cacheClear witnessCacheOff).fs = false := by
  have h := C10_disabled_cache 6 "k" "i" "o" [] witnessCacheOff (by decide)
  have h2 := C10_disabled_cache 6 "kx" "i" "o" [] witnessCacheOff (by decide)
  exact ⟨h.1, h2.2.1, h.2.2.1, h.2.2.2.1,
    h.2.2.2.2.1 ⟨"k", "in", "out", "h", 0, 5, 7, 0⟩ (by decide), h.2.2.2.2.2.1,
    h.2.2.2.2.2.2 ("k", ⟨"k", "in", "out", "h", 0, 5, 7, 0⟩) (by decide),
    h.2.2.2.2.2.2 ("k2", ⟨"k2", "in2", "out2", "h2", 0, 999999, 9, 1⟩) (by decide)⟩

/-- Manifest well-formedness maintained by the `CacheManager`: map keys are
unique and every entry's `key` field equals its map key (set always stores
the entry under `key` with `entry.key = key`). -/
def WfM (s : CacheState) : Prop :=
  (s.manifest.map Prod.fst).Nodup ∧ ∀ p ∈ s.manifest, p.2.key = p.1

theorem wfM_cacheDelete (key : String) (s : CacheState) (h : WfM s) :
    WfM (cacheDelete key s) := by
  unfold cacheDelete
  cases hm : mapGet s.manifest key with
  | none => exact h
  | some e =>
      refine ⟨?_, ?_⟩
      · exact h.1.sublist ((List.filter_sublist _).map Prod.fst)
      · intro p hp
        exact h.2 p (List.mem_of_mem_filter hp)

theorem wfM_foldl_delete (ks : List String) (s : CacheState) (h : WfM s) :
    WfM (ks.foldl (fun st k => cacheDelete k st) s) := by
  induction ks generalizing s with
  | nil => exact h
  | cons k ks ih =>
      simpa only [List.foldl_cons] using ih (cacheDelete k s) (wfM_cacheDelete k s h)

theorem wfM_cleanupExpired (now : Nat) (s : CacheState) (h : WfM s) :
    WfM (cleanupExpired now s) :=
  wfM_foldl_delete _ s h

theorem wfM_evictLoop (maxSize : Nat) (entries : List CacheEntry) (cur : Nat)
    (s : CacheState) (h : WfM s) : WfM (evictLoop maxSize entries cur s) := by
  induction entries generalizing cur s with
  | nil => exact h
  | cons e rest ih =>
      unfold evictLoop
      split
      · exact h
      · exact ih (cur - e.size) (cacheDelete e.key s) (wfM_cacheDelete e.key s h)

theorem wfM_evictIfNeeded (now : Nat) (s : CacheState) (h : WfM s) :
    WfM (evictIfNeeded now s) := by
  simp only [evictIfNeeded]
  split
  · exact wfM_cleanupExpired now s h
  · exact wfM_evictLoop _ _ _ _ (wfM_cleanupExpired now s h)

theorem mapGet_of_mem (m : List (String × CacheEntry)) (p : String × CacheEntry)
    (hn : (m.map Prod.fst).Nodup) (hp : p ∈ m) :
    mapGet m p.1 = some p.2 := by
  induction m with
  | nil => cases hp
  | cons q qs ih =>
      rcases List.mem_cons.mp hp with hEq | hmem
      · subst hEq
        simp [mapGet]
      · have hq1 : q.1 ∉ qs.map Prod.fst := (List.nodup_cons.mp hn).1
        have hne : ¬ ((fun pp : String × CacheEntry => pp.1 == p.1) q = true) := by
          simp only [beq_iff_eq]
          intro hEq
          exact hq1 (hEq ▸ List.mem_map_of_mem Prod.fst hmem)
        unfold mapGet at ih ⊢
        rw [List.find?_cons_of_neg
          (p := fun pp : String × CacheEntry => pp.1 == p.1) _ hne]
        exact ih (List.nodup_cons.mp hn).2 hmem

theorem totalSize_via_snds (m : List (String × CacheEntry)) :
    totalSize m = ((m.map Prod.snd).map CacheEntry.size).sum := by
  unfold totalSize
  rw [List.map_map]
  rfl

theorem insertLRU_perm (e : CacheEntry) (l : List CacheEntry) :
    List.Perm (insertLRU e l) (e :: l) := by
  induction l with
  | nil => exact List.Perm.refl _
  | cons x xs ih =>
      unfold insertLRU
      split
      · exact (ih.cons x).trans (List.Perm.swap e x xs)
      · exact List.Perm.refl _

theorem sortLRU_perm (l : List CacheEntry) : List.Perm (sortLRU l) l := by
  induction l with
  | nil => exact List.Perm.refl _
  | cons e rest ih =>
      have h1 : sortLRU (e :: rest) = insertLRU e (sortLRU rest) := rfl
      rw [h1]
      exact (insertLRU_perm e (sortLRU rest)).trans (ih.cons e)

/-- Deleting by an entry's key from a well-formed manifest removes exactly
that entry from the values. -/
theorem mapDelete_perm (m : List (String × CacheEntry)) (e : CacheEntry)
    (rest : List CacheEntry)
    (hn : (m.map Prod.fst).Nodup) (hk : ∀ p ∈ m, p.2.key = p.1)
    (hperm : List.Perm (m.map Prod.snd) (e :: rest)) :
    List.Perm ((mapDelete m e.key).map Prod.snd) rest := by
  induction m generalizing rest with
  | nil => simpa using hperm.length_eq
  | cons q qs ih =>
      have hq1 : q.1 ∉ qs.map Prod.fst := (List.nodup_cons.mp hn).1
      have hn2 : (qs.map Prod.fst).Nodup := (List.nodup_cons.mp hn).2
      have hk2 : ∀ p ∈ qs, p.2.key = p.1 := fun p hp => hk p (List.mem_cons_of_mem _ hp)
      by_cases hq : q.1 = e.key
      · have hqe : q.2 = e := by
          by_contra hne
          have he : e ∈ (q :: qs).map Prod.snd :=
            hperm.symm.subset (List.mem_cons_self _ _)
          have he2 : e ∈ qs.map Prod.snd := by
            rcases List.mem_cons.mp he with h1 | h1
            · exact absurd h1.symm hne
            · exact h1
          obtain ⟨p, hp, hpe⟩ := List.mem_map.mp he2
          apply hq1
          rw [hq]
          have hpk : p.1 = e.key := by rw [← hk2 p hp, hpe]
          rw [← hpk]
          exact List.mem_map_of_mem Prod.fst hp
        have hdel : mapDelete (q :: qs) e.key = qs := by
          unfold mapDelete
          rw [List.filter_cons]
          have hcond : (q.1 != e.key) = false := by simp [hq]
          rw [hcond]
          simp only [Bool.false_eq_true, if_false]
          apply List.filter_eq_self.mpr
          intro p hp
          simp only [bne_iff_ne, ne_eq]
          intro hEq
          apply hq1
          rw [hq, ← hEq]
          exact List.mem_map_of_mem Prod.fst hp
        rw [hdel]
        have hperm2 : List.Perm (e :: qs.map Prod.snd) (e :: rest) := by
          have : (q :: qs).map Prod.snd = q.2 :: qs.map Prod.snd := rfl
          rw [this, hqe] at hperm
          exact hperm
        exact hperm2.cons_inv
      · have hq2ne : q.2 ≠ e := by
          intro hEq
          apply hq
          rw [← hk q (List.mem_cons_self _ _), hEq]
        have hq2mem : q.2 ∈ rest := by
          have : q.2 ∈ (q :: qs).map Prod.snd := List.mem_map_of_mem Prod.snd
            (List.mem_cons_self _ _)
          rcases List.mem_cons.mp (hperm.subset this) with h1 | h1
          · exact absurd h1 hq2ne
          · exact h1
        have hdel : mapDelete (q :: qs) e.key = q :: mapDelete qs e.key := by
          unfold mapDelete
          rw [List.filter_cons]
          have hcond : (q.1 != e.key) = true := by simp [hq]
          rw [hcond]
          simp
        have hperm2 : List.Perm (qs.map Prod.snd) (e :: rest.erase q.2) := by
          have h3 := hperm.erase q.2
          have h4 : ((q :: qs).map Prod.snd).erase q.2 = qs.map Prod.snd := by
            have : (q :: qs).map Prod.snd = q.2 :: qs.map Prod.snd := rfl
            rw [this, List.erase_cons_head]
          have h5 : (e :: rest).erase q.2 = e :: rest.erase q.2 := by
            apply List.erase_cons_tail
            simp [Ne.symm hq2ne]
          rw [h4, h5] at h3
          exact h3
        have hih := ih (rest.erase q.2) hn2 hk2 hperm2
        rw [hdel]
        have hgoal : List.Perm (q.2 :: (mapDelete qs e.key).map Prod.snd)
            (q.2 :: rest.erase q.2) := hih.cons q.2
        exact hgoal.trans (List.perm_cons_erase hq2mem).symm

/-- The eviction loop leaves the aggregate at or below 80% of `maxSize`
when started from a snapshot (a permutation of the manifest's entries)
whose tally equals the aggregate. -/
theorem evictLoop_bound (maxSize : Nat) (entries : List CacheEntry) (cur : Nat)
    (s : CacheState) (hwf : WfM s)
    (hperm : List.Perm (s.manifest.map Prod.snd) entries)
    (hcur : cur = totalSize s.manifest) :
    5 * totalSize (evictLoop maxSize entries cur s).manifest ≤ 4 * maxSize ∨
    (5 * cur ≤ 4 * maxSize ∧ evictLoop maxSize entries cur s = s) := by
  induction entries generalizing cur s with
  | nil =>
      left
      have h0 : s.manifest.map Prod.snd = [] := hperm.eq_nil
      have hm : s.manifest = [] := by
        cases hsm : s.manifest with
        | nil => rfl
        | cons p ps => rw [hsm] at h0; simp at h0
      simp [evictLoop, hm, totalSize]
  | cons e rest ih =>
      unfold evictLoop
      split
      · rename_i hbreak
        exact Or.inr ⟨hbreak, rfl⟩
      · rename_i hbreak
        have he : e ∈ s.manifest.map Prod.snd := hperm.symm.subset (List.mem_cons_self _ _)
        obtain ⟨p, hp, hpe⟩ := List.mem_map.mp he
        have hpk : p.1 = e.key := by rw [← hwf.2 p hp, hpe]
        have hget : mapGet s.manifest e.key = some e := by
          rw [← hpk, mapGet_of_mem s.manifest p hwf.1 hp, hpe]
        have hdel : (cacheDelete e.key s).manifest = mapDelete s.manifest e.key := by
          unfold cacheDelete
          rw [hget]
        have hpermd : List.Perm ((cacheDelete e.key s).manifest.map Prod.snd) rest := by
          rw [hdel]
          exact mapDelete_perm s.manifest e rest hwf.1 hwf.2 hperm
        have hsum : cur = e.size + (rest.map CacheEntry.size).sum := by
          rw [hcur, totalSize_via_snds]
          have hx := (hperm.map CacheEntry.size).sum_eq
          simpa using hx
        have hcur2 : cur - e.size = totalSize (cacheDelete e.key s).manifest := by
          rw [totalSize_via_snds]
          have hx := (hpermd.map CacheEntry.size).sum_eq
          rw [hx]
          omega
        rcases ih (cur - e.size) (cacheDelete e.key s) (wfM_cacheDelete e.key s hwf)
            hpermd hcur2 with h | ⟨h1, h2⟩
        · exact Or.inl h
        · left
          rw [h2, ← hcur2]
          omega

/-- The states visited by the eviction loop: the result equals deleting, in
order, the keys of some prefix of the LRU-sorted snapshot. -/
theorem evictLoop_deletes_prefix (maxSize : Nat) (entries : List CacheEntry) (cur : Nat)
    (s : CacheState) :
    ∃ n, evictLoop maxSize entries cur s =
      ((entries.take n).map CacheEntry.key).foldl (fun st k => cacheDelete k st) s := by
  induction entries generalizing cur s with
  | nil => exact ⟨0, rfl⟩
  | cons e rest ih =>
      unfold evictLoop
      split
      · exact ⟨0, rfl⟩
      · obtain ⟨n, hn⟩ := ih (cur - e.size) (cacheDelete e.key s)
        refine ⟨n + 1, ?_⟩
        simpa [List.take_succ_cons, List.foldl_cons] using hn

theorem evictIfNeeded_total_le (now : Nat) (s : CacheState) (hwf : WfM s) :
    totalSize (evictIfNeeded now s).manifest ≤ s.maxSize := by
  have hcfg := cleanupExpired_config now s
  simp only [evictIfNeeded]
  split
  · rename_i htot
    rw [← hcfg.2.2]
    exact htot
  · rename_i htot
    rcases evictLoop_bound (cleanupExpired now s).maxSize
        (sortLRU ((cleanupExpired now s).manifest.map Prod.snd))
        (totalSize (cleanupExpired now s).manifest) (cleanupExpired now s)
        (wfM_cleanupExpired now s hwf)
        (sortLRU_perm _).symm rfl with h | ⟨h1, h2⟩
    · rw [← hcfg.2.2]
      omega
    · rw [h2, ← hcfg.2.2]
      omega

theorem evictIfNeeded_total_80 (now : Nat) (s : CacheState) (hwf : WfM s)
    (hover : s.maxSize < totalSize (cleanupExpired now s).manifest) :
    5 * totalSize (evictIfNeeded now s).manifest ≤ 4 * s.maxSize := by
  have hcfg := cleanupExpired_config now s
  simp only [evictIfNeeded]
  split
  · rename_i htot
    rw [hcfg.2.2] at htot
    omega
  · rcases evictLoop_bound (cleanupExpired now s).maxSize
        (sortLRU ((cleanupExpired now s).manifest.map Prod.snd))
        (totalSize (cleanupExpired now s).manifest) (cleanupExpired now s)
        (wfM_cleanupExpired now s hwf)
        (sortLRU_perm _).symm rfl with h | ⟨h1, h2⟩
    · rw [← hcfg.2.2]
      exact h
    · rw [h2, ← hcfg.2.2]
      rw [hcfg.2.2] at h1 ⊢
      omega

theorem totalSize_map_upsert_le (k : String) (v : CacheEntry)
    (m : List (String × CacheEntry)) (hn : (m.map Prod.fst).Nodup) :
    totalSize (m.map (fun p => if p.1 == k then (k, v) else p)) ≤
      totalSize m + v.size := by
  induction m with
  | nil => simp [totalSize]
  | cons q qs ih =>
      have hq1 : q.1 ∉ qs.map Prod.fst := (List.nodup_cons.mp hn).1
      have ih2 := ih (List.nodup_cons.mp hn).2
      by_cases hq : q.1 = k
      · have hqs_id : qs.map (fun p => if p.1 == k then (k, v) else p) = qs := by
          have hpt : ∀ p ∈ qs, (fun p : String × CacheEntry =>
              if p.1 == k then (k, v) else p) p = id p := by
            intro p hp
            have hne : p.1 ≠ k := by
              intro hEq
              apply hq1
              rw [hq, ← hEq]
              exact List.mem_map_of_mem Prod.fst hp
            simp [hne]
          rw [List.map_congr_left hpt, List.map_id]
        simp only [List.map_cons, hq, beq_self_eq_true, if_true, hqs_id]
        simp only [totalSize, List.map_cons, List.sum_cons]
        omega
      · have hcond : (q.1 == k) = false := by simp [hq]
        simp only [List.map_cons, hcond, Bool.false_eq_true, if_false]
        simp only [totalSize, List.map_cons, List.sum_cons] at ih2 ⊢
        omega

theorem totalSize_mapSet_le (m : List (String × CacheEntry)) (k : String)
    (v : CacheEntry) (hn : (m.map Prod.fst).Nodup) :
    totalSize (mapSet m k v) ≤ totalSize m + v.size := by
  unfold mapSet
  split
  · exact totalSize_map_upsert_le k v m hn
  · simp [totalSize]

/-- C7 counterexample start state: empty manifest, `maxSize` 100, and two
90-byte output files on the backing store. -/
def c7state : CacheState :=
  { enabled := true
    ttl := 86400
    maxSize := 100
    manifest := []
    hits := 0
    misses := 0
    fs := [("o1", 90), ("o2", 90)] }

/-- C7 counterexample: two sets whose entries total 180 bytes exceed
`maxSize = 100`, yet the resulting aggregate is 180 — far above 80% of
`maxSize` — because each `set` evicts before its own insertion: the second
set's eviction check sees only the first entry's 90 ≤ 100 and the entry
inserted last is never accounted. -/
theorem C7_counterexample_aggregate_exceeds_80pct :
    totalSize (cacheSet 1 "k2" "i2" "o2" []
      (cacheSet 0 "k1" "i1" "o1" [] c7state)).manifest = 180 ∧
    c7state.maxSize < 90 + 90 ∧
    ¬ (5 * totalSize (cacheSet 1 "k2" "i2" "o2" []
      (cacheSet 0 "k1" "i1" "o1" [] c7state)).manifest ≤ 4 * c7state.maxSize) := by
  refine ⟨by decide, by decide, by decide⟩

/-- C7 (amended): eviction runs at the start of `set`, before the new
entry is inserted.  For a well-formed manifest: (1) after `evictIfNeeded`
the aggregate size is at most `maxSize`; (2) when the post-cleanup
aggregate exceeded `maxSize`, it is reduced to at most 80% of `maxSize`;
(3) the entries deleted by the eviction loop are the keys of a prefix of
the entries sorted by `lastAccessedAt` ascending — the least-recently-used
entries are evicted first; (4) hence right after a `set` the aggregate is
bounded by `maxSize` plus the size of the just-inserted entry, but not by
80% of `maxSize` (see the counterexample). -/
theorem C7_amended_evict_before_insert (now : Nat) (s : CacheState) (hwf : WfM s) :
    totalSize (evictIfNeeded now s).manifest ≤ s.maxSize ∧
    (s.maxSize < totalSize (cleanupExpired now s).manifest →
      5 * totalSize (evictIfNeeded now s).manifest ≤ 4 * s.maxSize) ∧
    (∃ n, evictIfNeeded now s =
      (((sortLRU ((cleanupExpired now s).manifest.map Prod.snd)).take n).map
        CacheEntry.key).foldl (fun st k => cacheDelete k st) (cleanupExpired now s)) ∧
    (∀ key ip op opts, s.enabled = true →
      totalSize (cacheSet now key ip op opts s).manifest ≤
        s.maxSize + (if existsSync op (evictIfNeeded now s).fs then
          statSize op (evictIfNeeded now s).fs else 0)) := by
  refine ⟨evictIfNeeded_total_le now s hwf, evictIfNeeded_total_80 now s hwf, ?_, ?_⟩
  · simp only [evictIfNeeded]
    split
    · exact ⟨0, rfl⟩
    · exact evictLoop_deletes_prefix _ _ _ _
  · intro key ip op opts hen
    have hset : cacheSet now key ip op opts s =
        { (evictIfNeeded now s) with
          manifest := mapSet (evictIfNeeded now s).manifest key
            (CacheEntry.mk key ip op (generateParamsHash ip opts) now
              (now + (evictIfNeeded now s).ttl * 1000)
              (if existsSync op (evictIfNeeded now s).fs then
                statSize op (evictIfNeeded now s).fs else 0) now) } := by
      simp [cacheSet, hen]
    rw [hset]
    have hm1 := totalSize_mapSet_le (evictIfNeeded now s).manifest key
      (CacheEntry.mk key ip op (generateParamsHash ip opts) now
        (now + (evictIfNeeded now s).ttl * 1000)
        (if existsSync op (evictIfNeeded now s).fs then
          statSize op (evictIfNeeded now s).fs else 0) now)
      (wfM_evictIfNeeded now s hwf).1
    have hm2 := evictIfNeeded_total_le now s hwf
    calc totalSize (mapSet (evictIfNeeded now s).manifest key _) ≤
        totalSize (evictIfNeeded now s).manifest +
          (if existsSync op (evictIfNeeded now s).fs then
            statSize op (evictIfNeeded now s).fs else 0) := hm1
      _ ≤ s.maxSize + (if existsSync op (evictIfNeeded now s).fs then
            statSize op (evictIfNeeded now s).fs else 0) := by omega

/-- A cache state over its size budget: three 50-byte unexpired entries
with `lastAccessedAt` 3, 1 and 2 under `maxSize = 100`. -/
def c7big : CacheState :=
  { enabled := true
    ttl := 86400
    maxSize := 100
    manifest := [("a", ⟨"a", "i", "oa", "h", 0, 999999999999, 50, 3⟩),
                 ("b", ⟨"b", "i", "ob", "h", 0, 999999999999, 50, 1⟩),
                 ("c", ⟨"c", "i", "oc", "h", 0, 999999999999, 50, 2⟩)]
    hits := 0
    misses := 0
    fs := [("oa", 50), ("ob", 50), ("oc", 50)] }

/-- C7 amended witness: on `c7big` (aggregate 150 over the 100 budget) the
eviction reaches at most 80 bytes, deletes an LRU-prefix, and a subsequent
`set` stays within `maxSize` plus the new entry's size. -/
theorem C7_amended_evict_before_insert_witness :
    totalSize (evictIfNeeded 1 c7big).manifest ≤ c7big.maxSize ∧
    5 * totalSize (evictIfNeeded 1 c7big).manifest ≤ 4 * c7big.maxSize ∧
    (∃ n, evictIfNeeded 1 c7big =
      (((sortLRU ((cleanupExpired 1 c7big).manifest.map Prod.snd)).take n).map
        CacheEntry.key).foldl (fun st k => cacheDelete k st) (cleanupExpired 1 c7big)) ∧
    totalSize (cacheSet 1 "k" "i" "oa" [] c7big).manifest ≤
      c7big.maxSize + (if existsSync "oa" (evictIfNeeded 1 c7big).fs then
        statSize "oa" (evictIfNeeded 1 c7big).fs else 0) := by
  have h := C7_amended_evict_before_insert 1 c7big ⟨by decide, by decide⟩
  exact ⟨h.1, h.2.1 (by decide), h.2.2.1, h.2.2.2 "k" "i" "oa" [] (by decide)⟩

end FfmpegOneclick
